import Mathlib

/-!
Verification development for the Rubik's cube solver repository
(src/Solver/IDAstarSolver.h and src/PatternDatabases/math.cpp).

The C++ code is shallowly embedded: 32-bit unsigned arithmetic becomes
Nat arithmetic with explicit reduction modulo 2^32, the solver's
priority-queue loop becomes a fuel-indexed recursion over an explicit
search state, and the collaborators that are not part of the sources
(the cube-state interface of RubiksCube.h and the pattern database) are
modelled from the specification as abstract parameters.
-/

set_option maxRecDepth 4000

namespace RubiksSolver

/-! ## Combinatorics utilities (src/PatternDatabases/math.cpp)

The C++ functions operate on `uint32_t`.  A `uint32_t` value is embedded
as a `Nat` below `2^32`; every operation that can wrap (multiplication,
subtraction) reduces modulo `2^32` exactly where the machine would wrap. -/

/-- The modulus of 32-bit unsigned arithmetic. -/
def U32 : Nat := 2 ^ 32

/-- Embedding of `uint32_t factorial(uint32_t n)`:
`return n<=1 ? 1 : n * factorial(n-1);` with wrapping multiplication. -/
def factorial : Nat → Nat
  | 0 => 1
  | 1 => 1
  | n + 2 => ((n + 2) * factorial (n + 1)) % U32

/-- 32-bit unsigned subtraction `n - k`, valid for `n, k < 2^32`. -/
def sub32 (n k : Nat) : Nat := (n + U32 - k) % U32

/-- Embedding of `uint32_t pick(uint32_t n, uint32_t k)`:
`return factorial(n) / factorial(n-k);` (no `n < k` guard). -/
def pick (n k : Nat) : Nat := factorial n / factorial (sub32 n k)

/-- Embedding of `uint32_t choose(uint32_t n, uint32_t k)`:
`return (n<k) ? 0 : factorial(n) / (factorial(n-k) * factorial(k));`
with wrapping multiplication in the divisor. -/
def choose (n k : Nat) : Nat :=
  if n < k then 0 else factorial n / ((factorial (sub32 n k) * factorial k) % U32)

theorem factorial_eq_mod (n : Nat) : factorial n = Nat.factorial n % U32 := by
  induction n using factorial.induct with
  | case1 => rfl
  | case2 => rfl
  | case3 n ih =>
    calc factorial (n + 2) = ((n + 2) * factorial (n + 1)) % U32 := rfl
      _ = ((n + 2) * (Nat.factorial (n + 1) % U32)) % U32 := by rw [ih]
      _ = ((n + 2) * Nat.factorial (n + 1)) % U32 := by
            conv_lhs => rw [Nat.mul_mod]
            conv_rhs => rw [Nat.mul_mod]
            rw [Nat.mod_mod_of_dvd _ dvd_rfl]
      _ = Nat.factorial (n + 2) % U32 := rfl

theorem factorial_of_lt_u32 {n : Nat} (h : Nat.factorial n < U32) :
    factorial n = Nat.factorial n := by
  rw [factorial_eq_mod, Nat.mod_eq_of_lt h]

theorem factorial_eq_zero_of_ge {n : Nat} (h : 34 ≤ n) : factorial n = 0 := by
  rw [factorial_eq_mod]
  have hdvd : U32 ∣ Nat.factorial n := by
    have h34 : U32 ∣ Nat.factorial 34 := by decide
    exact h34.trans (Nat.factorial_dvd_factorial h)
  exact Nat.mod_eq_zero_of_dvd hdvd

theorem sub32_of_le {n k : Nat} (hn : n < U32) (hk : k ≤ n) : sub32 n k = n - k := by
  unfold sub32
  have h1 : n + U32 - k = (n - k) + U32 := by omega
  rw [h1, Nat.add_mod_right]
  exact Nat.mod_eq_of_lt (by omega)

/-- Claim C9: the combinatorics utilities satisfy their reference
base cases on the documented domain: `factorial(0) == 1`,
`pick(5,2) == 20`, `choose(5,2) == 10`, and `choose(n,k) == 0`
whenever `n < k` (in particular `choose(3,5) == 0`). -/
theorem C9_combinatorics_base_cases (n k : Nat) (hk : k < U32) (h : n < k) :
    factorial 0 = 1 ∧ pick 5 2 = 20 ∧ choose 5 2 = 10 ∧
      choose n k = 0 ∧ choose 3 5 = 0 := by
  refine ⟨rfl, by decide, by decide, ?_, by decide⟩
  unfold choose
  rw [if_pos h]

theorem C9_combinatorics_base_cases_witness :
    factorial 0 = 1 ∧ pick 5 2 = 20 ∧ choose 5 2 = 10 ∧
      choose 3 5 = 0 ∧ choose 3 5 = 0 :=
  C9_combinatorics_base_cases 3 5 (by decide) (by decide)

/-- Claim C10: `pick` has no `n < k` guard.  For `k ≤ n` with
`factorial(n)` inside the 32-bit range the divisor `factorial(n-k)` is
nonzero, so the division is safe; but for the input `n = 0, k = 2` the
unsigned subtraction `n - k` wraps to `2^32 - 2`, whose 32-bit factorial
is 0, so `pick` there divides by zero.  Therefore `k ≤ n` is a necessary
precondition for `pick`. -/
theorem C10_pick_divisor (n k : Nat) (hn : n < U32) (hk : k ≤ n)
    (hf : Nat.factorial n < U32) :
    factorial (sub32 n k) ≠ 0 ∧ sub32 0 2 = U32 - 2 ∧ factorial (sub32 0 2) = 0 := by
  refine ⟨?_, by decide, factorial_eq_zero_of_ge (by decide)⟩
  rw [sub32_of_le hn hk]
  have hlt : Nat.factorial (n - k) < U32 :=
    Nat.lt_of_le_of_lt (Nat.factorial_le (Nat.sub_le n k)) hf
  rw [factorial_of_lt_u32 hlt]
  exact (Nat.factorial_pos (n - k)).ne'

theorem C10_pick_divisor_witness :
    factorial (sub32 5 2) ≠ 0 ∧ sub32 0 2 = U32 - 2 ∧ factorial (sub32 0 2) = 0 :=
  C10_pick_divisor 5 2 (by decide) (by decide) (by decide)

/-! ## Search engine (src/Solver/IDAstarSolver.h)

The solver is a C++ template over a cube type `T` and a hash `H`; it
touches the cube only through `move`, `invert`, `isSolved`, equality
and hashing.  The cube representation itself (RubiksCube.h) is not part
of the sources, so that interface is modelled from the specification. -/

/-- Modelled from the spec: the Move/State interface of §6 (the cube
representation of RubiksCube.h is missing from the sources).  A move is
one of the indices 0..17 of the C++ enumeration `RubiksCube::MOVE`;
`move` applies it, `invert` applies its inverse. -/
structure CubeModel (S : Type) where
  move : S → Nat → S
  invert : S → Nat → S
  isSolved : S → Bool

/-- `struct Node` of IDAstarSolver.h. -/
structure Node (S : Type) where
  cube : S
  depth : Nat
  estimate : Nat
deriving DecidableEq

/-- `struct compareCube`: the comparator on `pair<Node,int>` used by the
priority frontier. -/
def compareCube {S : Type} (p1 p2 : Node S × Nat) : Bool :=
  if p1.1.depth + p1.1.estimate = p2.1.depth + p2.1.estimate then
    p2.1.estimate < p1.1.estimate
  else
    p2.1.depth + p2.1.estimate < p1.1.depth + p1.1.estimate

/-- Removal from the priority frontier: `pq.top(); pq.pop()` yields a
maximal element in the strict weak order given by `compareCube`
(`std::priority_queue` pops a greatest element; among tied elements the
C++ heap order is unspecified, the model takes the earliest). -/
def pqPop {S : Type} : List (Node S × Nat) → Option ((Node S × Nat) × List (Node S × Nat))
  | [] => none
  | x :: xs =>
    match pqPop xs with
    | none => some (x, xs)
    | some (m, rest) => if compareCube x m then some (m, x :: rest) else some (x, xs)

/-- Outcome of one bounded-expansion call `IDAstar(bound)`: the returned
`pair<T,int>`, the final contents of the member structures, and an
instrumentation trace of the run (`solvedDepth` is the depth of the node
on which the solved branch fired, `pruned` the costs of the over-bound
candidates in order, `expanded` the states that passed the visited check
(latest first), `genPairs` the state/estimate pairs for the root seed and
every generated not-yet-visited successor). -/
structure IDAResult (S : Type) where
  result : S × Nat
  solvedDepth : Option Nat
  visited : List S
  move_done : List (S × Nat)
  pruned : List Nat
  expanded : List S
  genPairs : List (S × Nat)
deriving DecidableEq

/-- The successor loop `for (int i=0;i<18;i++)` of `IDAstar`: the cube is
mutated by `move`, probed, and restored by `invert`; a not-yet-visited
successor gets estimate 0 (`node.estimate = 0;` in the source) and is
either pruned — its cost feeding the running minimum `next_bound` — or
pushed with `depth+1`. -/
def expandLoop {S : Type} [DecidableEq S] (M : CubeModel S) (bound depth : Nat)
    (visited : List S) :
    List Nat → S → List (Node S × Nat) → Nat → List Nat → List (S × Nat) →
      List (Node S × Nat) × Nat × List Nat × List (S × Nat)
  | [], _, pq, nb, pruned, gen => (pq, nb, pruned, gen)
  | i :: is, c, pq, nb, pruned, gen =>
    let c1 := M.move c i
    if c1 ∈ visited then
      expandLoop M bound depth visited is (M.invert c1 i) pq nb pruned gen
    else
      let est : Nat := 0
      if bound < depth + est then
        expandLoop M bound depth visited is (M.invert c1 i) pq (Nat.min nb (depth + est))
          (pruned ++ [depth + est]) (gen ++ [(c1, est)])
      else
        expandLoop M bound depth visited is (M.invert c1 i)
          ((⟨c1, depth, est⟩, i) :: pq) nb pruned (gen ++ [(c1, est)])

/-- The `while (!pq.empty())` loop of `IDAstar`, fuel-indexed (`none`
means the fuel ran out before the loop finished).  A popped node already
in `visited` is skipped; otherwise it is marked visited, recorded in
`move_done`, tested for solvedness (returning `{node.cube, bound}` on
success), and expanded. -/
def IDAloop {S : Type} [DecidableEq S] (M : CubeModel S) (root : S) (bound : Nat) :
    Nat → List (Node S × Nat) → List S → List (S × Nat) → Nat → List Nat → List S →
      List (S × Nat) → Option (IDAResult S)
  | 0, _, _, _, _, _, _, _ => none
  | fuel + 1, pq, visited, md, nb, pruned, expanded, gen =>
    match pqPop pq with
    | none => some ⟨(root, nb), none, visited, md, pruned, expanded, gen⟩
    | some ((node, mv), pq1) =>
      if node.cube ∈ visited then
        IDAloop M root bound fuel pq1 visited md nb pruned expanded gen
      else
        let visited1 := node.cube :: visited
        let md1 := (node.cube, mv) :: md
        if M.isSolved node.cube then
          some ⟨(node.cube, bound), some node.depth, visited1, md1, pruned,
            node.cube :: expanded, gen⟩
        else
          match expandLoop M bound (node.depth + 1) visited1 (List.range 18) node.cube
              pq1 nb pruned gen with
          | (pq2, nb2, pruned2, gen2) =>
            IDAloop M root bound fuel pq2 visited1 md1 nb2 pruned2
              (node.cube :: expanded) gen2

/-- `pair<T,int> IDAstar(int bound)`: seeds the frontier with
`Node(rubiksCube, 0, 0)` paired with move 0, starts `next_bound` at the
hard-coded 100, and runs the loop on the member structures
`visited`/`move_done` in whatever state the caller left them. -/
def IDAstar {S : Type} [DecidableEq S] (M : CubeModel S) (root : S) (bound : Nat)
    (visited0 : List S) (md0 : List (S × Nat)) (fuel : Nat) : Option (IDAResult S) :=
  IDAloop M root bound fuel [(⟨root, 0, 0⟩, 0)] visited0 md0 100 [] [] [(root, 0)]

/-- The members of `IDAstarSolver` as seen by `solve`, plus
instrumentation: `callInits` records the `(visited, move_done)` contents
passed to each `IDAstar` call, `boundTrace` the successive values
assigned to the local variable `bound`. -/
structure SolveSt (S : Type) where
  rubiksCube : S
  bound : Nat
  p : S × Nat
  visited : List S
  move_done : List (S × Nat)
  moves : List Nat
  callInits : List (List S × List (S × Nat))
  boundTrace : List Nat
deriving DecidableEq

/-- `void resetStructure()`: clears `moves`, `visited` and `move_done`. -/
def resetStructure {S : Type} (st : SolveSt S) : SolveSt S :=
  { st with moves := [], visited := [], move_done := [] }

/-- The driver loop `while (p.second != bound)` of `solve`.  The source
line `bound = IDAstar(bound);` assigns the pair returned by `IDAstar` to
the integer `bound`; following the specification, which reads this
driver as reassigning "the bound from a structured outcome to a plain
integer in a way that loses the solved-state information" (§9), the
model stores the integer component, while `p` keeps the value of the
first call.  The second component of the result tells whether the loop
exited (`false`: fuel ran out with the loop still running). -/
def solveLoop {S : Type} [DecidableEq S] (M : CubeModel S) (innerFuel : Nat) :
    Nat → SolveSt S → SolveSt S × Bool
  | 0, st => (st, false)
  | f + 1, st =>
    if st.p.2 = st.bound then (st, true)
    else
      let st1 := resetStructure st
      let b1 := st1.p.2
      match IDAstar M st1.rubiksCube b1 st1.visited st1.move_done innerFuel with
      | none => (st1, false)
      | some r =>
        solveLoop M innerFuel f
          { st1 with
            bound := r.result.2
            visited := r.visited
            move_done := r.move_done
            callInits := st1.callInits ++ [(st1.visited, st1.move_done)]
            boundTrace := st1.boundTrace ++ [b1, r.result.2] }

/-- `move_done[curr_cube]` via `unordered_map::operator[]`: a missing key
yields the value-initialized move 0. -/
def lookupMove {S : Type} [DecidableEq S] (md : List (S × Nat)) (s : S) : Nat :=
  match md.find? (fun q => q.1 = s) with
  | some q => q.2
  | none => 0

/-- The path-reconstruction loop `while (curr_cube != rubiksCube)` of
`solve`, fuel-indexed: append the recorded move, step back with its
inverse. -/
def reconLoop {S : Type} [DecidableEq S] (M : CubeModel S) (md : List (S × Nat)) (root : S) :
    Nat → S → List Nat → Option (List Nat)
  | 0, curr, acc => if curr = root then some acc else none
  | f + 1, curr, acc =>
    if curr = root then some acc
    else
      let mv := lookupMove md curr
      reconLoop M md root f (M.invert curr mv) (acc ++ [mv])

/-- `vector<RubiksCube::MOVE> solve()`: first call with `bound = 1` on
the fresh (empty) member structures, then the driver loop, then path
reconstruction from `p.first` and reversal.  Returns the move sequence
when the run finishes within the given fuels (`none` otherwise),
together with the final member state. -/
def solve {S : Type} [DecidableEq S] (M : CubeModel S)
    (innerFuel outerFuel reconFuel : Nat) (root : S) :
    Option (List Nat) × SolveSt S :=
  match IDAstar M root 1 [] [] innerFuel with
  | none => (none, ⟨root, 1, (root, 0), [], [], [], [([], [])], [1]⟩)
  | some r =>
    let st0 : SolveSt S :=
      ⟨root, 1, r.result, r.visited, r.move_done, [], [([], [])], [1]⟩
    let res := solveLoop M innerFuel outerFuel st0
    let st := res.1
    if res.2 then
      let solvedCube := st.p.1
      match reconLoop M st.move_done st.rubiksCube reconFuel solvedCube st.moves with
      | none => (none, st)
      | some mvs => (some mvs.reverse, { st with rubiksCube := solvedCube })
    else (none, st)

/-- Applying a move sequence in order to a state (spec §8, solution
validity). -/
def applyMoves {S : Type} (M : CubeModel S) (s : S) : List Nat → S
  | [] => s
  | m :: ms => applyMoves M (M.move s m) ms

/-- A conforming Move/State instance on counters: every move increments,
`invert` undoes it, the solved states are exactly `t` — so the root 0 is
`t` moves from solved.  Exercises the generic solver at chosen depths. -/
def chainM (t : Nat) : CubeModel Nat :=
  ⟨fun s _ => s + 1, fun s _ => s - 1, fun s => s == t⟩

/-- A conforming Move/State instance with two states and no solved state
(spec §8, failure path): every move toggles and is its own inverse. -/
def toggleM : CubeModel Bool :=
  ⟨fun s _ => !s, fun s _ => !s, fun _ => false⟩

/-! ## The frontier ordering (claim C7) -/

/-- The cost of a frontier entry, `depth + estimate` (spec §3). -/
def nodeCost {S : Type} (p : Node S × Nat) : Nat := p.1.depth + p.1.estimate

theorem compareCube_true_iff {S : Type} (p q : Node S × Nat) :
    compareCube p q = true ↔
      nodeCost q < nodeCost p ∨ (nodeCost q = nodeCost p ∧ q.1.estimate < p.1.estimate) := by
  unfold compareCube nodeCost
  split <;> (simp only [decide_eq_true_eq]; omega)

theorem compareCube_irrefl {S : Type} (p : Node S × Nat) : compareCube p p = false := by
  rw [← Bool.not_eq_true, compareCube_true_iff]
  omega

theorem compareCube_asymm {S : Type} {p q : Node S × Nat}
    (h : compareCube p q = true) : compareCube q p = false := by
  rw [compareCube_true_iff] at h
  rw [← Bool.not_eq_true, compareCube_true_iff]
  omega

theorem compareCube_negtrans {S : Type} {p q r : Node S × Nat}
    (h1 : compareCube p q = false) (h2 : compareCube q r = false) :
    compareCube p r = false := by
  rw [← Bool.not_eq_true, compareCube_true_iff] at h1 h2 ⊢
  omega

theorem pqPop_eq_none {S : Type} {l : List (Node S × Nat)} :
    pqPop l = none ↔ l = [] := by
  cases l with
  | nil => simp [pqPop]
  | cons x xs =>
    rcases hx : pqPop xs with _ | ⟨m, rest⟩ <;> simp only [pqPop, hx]
    · simp
    · split <;> simp

theorem pqPop_max {S : Type} :
    ∀ (pq : List (Node S × Nat)) (x : Node S × Nat) (rest : List (Node S × Nat)),
      pqPop pq = some (x, rest) → ∀ y ∈ pq, compareCube x y = false := by
  intro pq
  induction pq with
  | nil => intro x rest h; simp [pqPop] at h
  | cons a as ih =>
    intro x rest h y hy
    rcases has : pqPop as with _ | ⟨m, rest2⟩
    · have hnil : as = [] := pqPop_eq_none.mp has
      simp only [pqPop, has] at h
      injection h with h2
      injection h2 with hax hrest
      rcases List.mem_cons.mp hy with hya | hmem
      · rw [hya, ← hax]
        exact compareCube_irrefl a
      · rw [hnil] at hmem
        exact absurd hmem (List.not_mem_nil y)
    · simp only [pqPop, has] at h
      by_cases hc : compareCube a m = true
      · rw [if_pos hc] at h
        injection h with h2
        injection h2 with hmx hrest
        rcases List.mem_cons.mp hy with hya | hmem
        · rw [hya, ← hmx]
          exact compareCube_asymm hc
        · rw [← hmx]
          exact ih m rest2 has y hmem
      · rw [if_neg hc] at h
        injection h with h2
        injection h2 with hax hrest
        rcases List.mem_cons.mp hy with hya | hmem
        · rw [hya, ← hax]
          exact compareCube_irrefl a
        · rw [← hax]
          exact compareCube_negtrans (Bool.not_eq_true _ ▸ hc) (ih m rest2 has y hmem)

/-- Claim C7: the frontier removes a node of minimal `cost = depth +
estimate`, preferring among equal costs the node with the smaller
estimate; equivalently the comparator orders entry `A` before entry `B`
exactly when `A`'s cost is smaller, or the costs are equal and `A`'s
estimate is smaller.  (`compareCube B A` is the heap's "B is less than
A", so it holds exactly when `A` is removed first.) -/
theorem C7_frontier_order {S : Type} :
    (∀ pA pB : Node S × Nat, compareCube pB pA = true ↔
        (nodeCost pA < nodeCost pB ∨
          (nodeCost pA = nodeCost pB ∧ pA.1.estimate < pB.1.estimate))) ∧
    (∀ (pq : List (Node S × Nat)) (x : Node S × Nat) (rest : List (Node S × Nat)),
      pqPop pq = some (x, rest) → ∀ y ∈ pq,
        nodeCost x ≤ nodeCost y ∧
          (nodeCost x = nodeCost y → x.1.estimate ≤ y.1.estimate)) := by
  constructor
  · intro pA pB
    exact compareCube_true_iff pB pA
  · intro pq x rest h y hy
    have hf := pqPop_max pq x rest h y hy
    rw [← Bool.not_eq_true, compareCube_true_iff] at hf
    exact ⟨by omega, by omega⟩

/-! ## Run invariants of the bounded-expansion call -/

theorem expandLoop_nb {S : Type} [DecidableEq S] (M : CubeModel S) (bound depth : Nat)
    (visited : List S) :
    ∀ (is : List Nat) (c : S) (pq : List (Node S × Nat)) (nb : Nat) (pruned : List Nat)
      (gen : List (S × Nat)),
      nb = List.foldl Nat.min 100 pruned →
      (expandLoop M bound depth visited is c pq nb pruned gen).2.1 =
        List.foldl Nat.min 100 (expandLoop M bound depth visited is c pq nb pruned gen).2.2.1 := by
  intro is
  induction is with
  | nil =>
    intro c pq nb pruned gen h
    simpa [expandLoop] using h
  | cons i is ih =>
    intro c pq nb pruned gen h
    simp only [expandLoop]
    split
    · exact ih _ _ _ _ _ h
    · split
      · apply ih
        rw [List.foldl_append, ← h]
        rfl
      · exact ih _ _ _ _ _ h

theorem expandLoop_gen {S : Type} [DecidableEq S] (M : CubeModel S) (bound depth : Nat)
    (visited : List S) :
    ∀ (is : List Nat) (c : S) (pq : List (Node S × Nat)) (nb : Nat) (pruned : List Nat)
      (gen : List (S × Nat)),
      (∀ p ∈ gen, p.2 = 0) →
      ∀ p ∈ (expandLoop M bound depth visited is c pq nb pruned gen).2.2.2, p.2 = 0 := by
  intro is
  induction is with
  | nil =>
    intro c pq nb pruned gen h
    simpa [expandLoop] using h
  | cons i is ih =>
    intro c pq nb pruned gen h
    simp only [expandLoop]
    split
    · exact ih _ _ _ _ _ h
    · have hstep : ∀ p ∈ gen ++ [(M.move c i, 0)], p.2 = (0 : Nat) := by
        intro p hp
        rcases List.mem_append.mp hp with hl | hr
        · exact h p hl
        · rw [List.mem_singleton.mp hr]
      split
      · exact ih _ _ _ _ _ hstep
      · exact ih _ _ _ _ _ hstep

theorem IDAloop_next_bound {S : Type} [DecidableEq S] (M : CubeModel S) (root : S)
    (bound : Nat) :
    ∀ (fuel : Nat) (pq : List (Node S × Nat)) (v : List S) (md : List (S × Nat))
      (nb : Nat) (pruned : List Nat) (ex : List S) (gen : List (S × Nat)) (r : IDAResult S),
      IDAloop M root bound fuel pq v md nb pruned ex gen = some r →
      nb = List.foldl Nat.min 100 pruned →
      r.solvedDepth = none →
      r.result.2 = List.foldl Nat.min 100 r.pruned := by
  intro fuel
  induction fuel with
  | zero =>
    intro pq v md nb pruned ex gen r h _ _
    simp [IDAloop] at h
  | succ fuel ih =>
    intro pq v md nb pruned ex gen r h hinv hns
    rcases hp : pqPop pq with _ | ⟨⟨node, mv⟩, pq1⟩ <;> simp only [IDAloop, hp] at h
    · injection h with h2
      subst h2
      exact hinv
    · by_cases hv : node.cube ∈ v
      · rw [if_pos hv] at h
        exact ih _ _ _ _ _ _ _ _ h hinv hns
      · rw [if_neg hv] at h
        by_cases hs : M.isSolved node.cube = true
        · rw [if_pos hs] at h
          injection h with h2
          subst h2
          simp at hns
        · rw [if_neg hs] at h
          rcases hE : expandLoop M bound (node.depth + 1) (node.cube :: v) (List.range 18)
              node.cube pq1 nb pruned gen with ⟨pq2, nb2, pr2, gen2⟩
          simp only [hE] at h
          have hinv2 : nb2 = List.foldl Nat.min 100 pr2 := by
            have hx := expandLoop_nb M bound (node.depth + 1) (node.cube :: v)
              (List.range 18) node.cube pq1 nb pruned gen hinv
            rw [hE] at hx
            exact hx
          exact ih _ _ _ _ _ _ _ _ h hinv2 hns

theorem IDAloop_solved_bound {S : Type} [DecidableEq S] (M : CubeModel S) (root : S)
    (bound : Nat) :
    ∀ (fuel : Nat) (pq : List (Node S × Nat)) (v : List S) (md : List (S × Nat))
      (nb : Nat) (pruned : List Nat) (ex : List S) (gen : List (S × Nat)) (r : IDAResult S),
      IDAloop M root bound fuel pq v md nb pruned ex gen = some r →
      r.solvedDepth ≠ none →
      r.result.2 = bound := by
  intro fuel
  induction fuel with
  | zero =>
    intro pq v md nb pruned ex gen r h _
    simp [IDAloop] at h
  | succ fuel ih =>
    intro pq v md nb pruned ex gen r h hns
    rcases hp : pqPop pq with _ | ⟨⟨node, mv⟩, pq1⟩ <;> simp only [IDAloop, hp] at h
    · injection h with h2
      subst h2
      exact absurd rfl hns
    · by_cases hv : node.cube ∈ v
      · rw [if_pos hv] at h
        exact ih _ _ _ _ _ _ _ _ h hns
      · rw [if_neg hv] at h
        by_cases hs : M.isSolved node.cube = true
        · rw [if_pos hs] at h
          injection h with h2
          subst h2
          rfl
        · rw [if_neg hs] at h
          rcases hE : expandLoop M bound (node.depth + 1) (node.cube :: v) (List.range 18)
              node.cube pq1 nb pruned gen with ⟨pq2, nb2, pr2, gen2⟩
          simp only [hE] at h
          exact ih _ _ _ _ _ _ _ _ h hns

theorem IDAloop_expanded_nodup {S : Type} [DecidableEq S] (M : CubeModel S) (root : S)
    (bound : Nat) :
    ∀ (fuel : Nat) (pq : List (Node S × Nat)) (v : List S) (md : List (S × Nat))
      (nb : Nat) (pruned : List Nat) (ex : List S) (gen : List (S × Nat)) (r : IDAResult S),
      IDAloop M root bound fuel pq v md nb pruned ex gen = some r →
      ex.Nodup → (∀ s ∈ ex, s ∈ v) →
      r.expanded.Nodup := by
  intro fuel
  induction fuel with
  | zero =>
    intro pq v md nb pruned ex gen r h _ _
    simp [IDAloop] at h
  | succ fuel ih =>
    intro pq v md nb pruned ex gen r h hnd hsub
    rcases hp : pqPop pq with _ | ⟨⟨node, mv⟩, pq1⟩ <;> simp only [IDAloop, hp] at h
    · injection h with h2
      subst h2
      exact hnd
    · by_cases hv : node.cube ∈ v
      · rw [if_pos hv] at h
        exact ih _ _ _ _ _ _ _ _ h hnd hsub
      · rw [if_neg hv] at h
        have hnd2 : (node.cube :: ex).Nodup :=
          List.nodup_cons.mpr ⟨fun hc => hv (hsub _ hc), hnd⟩
        have hsub2 : ∀ s ∈ node.cube :: ex, s ∈ node.cube :: v := by
          intro s hs
          rcases List.mem_cons.mp hs with rfl | hmem
          · exact List.mem_cons_self _ _
          · exact List.mem_cons_of_mem _ (hsub s hmem)
        by_cases hs : M.isSolved node.cube = true
        · rw [if_pos hs] at h
          injection h with h2
          subst h2
          exact hnd2
        · rw [if_neg hs] at h
          rcases hE : expandLoop M bound (node.depth + 1) (node.cube :: v) (List.range 18)
              node.cube pq1 nb pruned gen with ⟨pq2, nb2, pr2, gen2⟩
          simp only [hE] at h
          exact ih _ _ _ _ _ _ _ _ h hnd2 hsub2

theorem IDAloop_gen_zero {S : Type} [DecidableEq S] (M : CubeModel S) (root : S)
    (bound : Nat) :
    ∀ (fuel : Nat) (pq : List (Node S × Nat)) (v : List S) (md : List (S × Nat))
      (nb : Nat) (pruned : List Nat) (ex : List S) (gen : List (S × Nat)) (r : IDAResult S),
      IDAloop M root bound fuel pq v md nb pruned ex gen = some r →
      (∀ p ∈ gen, p.2 = 0) →
      ∀ p ∈ r.genPairs, p.2 = 0 := by
  intro fuel
  induction fuel with
  | zero =>
    intro pq v md nb pruned ex gen r h _
    simp [IDAloop] at h
  | succ fuel ih =>
    intro pq v md nb pruned ex gen r h hz
    rcases hp : pqPop pq with _ | ⟨⟨node, mv⟩, pq1⟩ <;> simp only [IDAloop, hp] at h
    · injection h with h2
      subst h2
      exact hz
    · by_cases hv : node.cube ∈ v
      · rw [if_pos hv] at h
        exact ih _ _ _ _ _ _ _ _ h hz
      · rw [if_neg hv] at h
        by_cases hs : M.isSolved node.cube = true
        · rw [if_pos hs] at h
          injection h with h2
          subst h2
          exact hz
        · rw [if_neg hs] at h
          rcases hE : expandLoop M bound (node.depth + 1) (node.cube :: v) (List.range 18)
              node.cube pq1 nb pruned gen with ⟨pq2, nb2, pr2, gen2⟩
          simp only [hE] at h
          have hz2 : ∀ p ∈ gen2, p.2 = (0 : Nat) := by
            have hx := expandLoop_gen M bound (node.depth + 1) (node.cube :: v)
              (List.range 18) node.cube pq1 nb pruned gen hz
            rw [hE] at hx
            exact hx
          exact ih _ _ _ _ _ _ _ _ h hz2

theorem C7_frontier_order_witness :
    nodeCost ((⟨0, 0, 0⟩ : Node Nat), 1) ≤ nodeCost ((⟨0, 1, 0⟩ : Node Nat), 0) ∧
      (nodeCost ((⟨0, 0, 0⟩ : Node Nat), 1) = nodeCost ((⟨0, 1, 0⟩ : Node Nat), 0) →
        ((⟨0, 0, 0⟩ : Node Nat), 1).1.estimate ≤ ((⟨0, 1, 0⟩ : Node Nat), 0).1.estimate) :=
  C7_frontier_order.2 [((⟨0, 1, 0⟩ : Node Nat), 0), ((⟨0, 0, 0⟩ : Node Nat), 1)]
    ((⟨0, 0, 0⟩ : Node Nat), 1) [((⟨0, 1, 0⟩ : Node Nat), 0)] (by decide)
    ((⟨0, 1, 0⟩ : Node Nat), 0) (by decide)

/-! ## Claims about the seeded estimates, the next bound, and the
returned integer -/

/-- The property claim C2 asserts of the heuristic provider `h` (the
pattern database): the root seed and every generated successor receive
`h`'s value for their state as estimate. -/
def heuristicSeeded {S : Type} [DecidableEq S] (M : CubeModel S) (h : S → Nat)
    (root : S) (bound fuel : Nat) : Prop :=
  ∀ r, IDAstar M root bound [] [] fuel = some r → ∀ p ∈ r.genPairs, p.2 = h p.1

/-- Claim C2 (code bug): the solver never consults the pattern database.
Every estimate it assigns — the root seed and every generated successor,
in any call — is the constant 0 (`Node(rubiksCube, 0, 0)` and
`node.estimate = 0;` in the source, with the `cornerDB` member unused);
in particular the claimed seeding fails for a provider valuing the root
at 5. -/
theorem C2_heuristic_never_consulted :
    (∀ {S : Type} [DecidableEq S] (M : CubeModel S) (root : S) (bound : Nat)
        (v0 : List S) (md0 : List (S × Nat)) (fuel : Nat),
      (IDAstar M root bound v0 md0 fuel).all
        (fun r => r.genPairs.all (fun p => p.2 == 0)) = true) ∧
    ¬ heuristicSeeded (chainM 1) (fun _ => 5) 0 2 30 := by
  constructor
  · intro S _ M root bound v0 md0 fuel
    cases hI : IDAstar M root bound v0 md0 fuel with
    | none => rfl
    | some r =>
      simp only [Option.all]
      rw [List.all_eq_true]
      intro p hp
      have hI2 : IDAloop M root bound fuel [(⟨root, 0, 0⟩, 0)] v0 md0 100 [] [] [(root, 0)]
          = some r := hI
      have hz := IDAloop_gen_zero M root bound fuel _ _ _ _ _ _ _ _ hI2
        (by intro q hq; rw [List.mem_singleton.mp hq]) p hp
      simp [hz]
  · intro hcl
    exact absurd (hcl _ rfl ((0 : Nat), (0 : Nat)) (by decide)) (by decide)

/-- The property claim C3 asserts of an exhausted bounded-expansion
call: the returned next bound is the least cost among the candidates
pruned during that call. -/
def nextBoundLeastPruned {S : Type} [DecidableEq S] (M : CubeModel S) (root : S)
    (bound fuel : Nat) : Prop :=
  ∀ r, IDAstar M root bound [] [] fuel = some r → r.solvedDepth = none →
    r.result.2 ∈ r.pruned ∧ ∀ c ∈ r.pruned, r.result.2 ≤ c

/-- Claim C3, counterexample: on the two-state instance with no solved
state, the bound-1 call exhausts the graph with no pruned candidate at
all, yet returns the hard-coded default 100 — which is then not the
least cost among pruned candidates. -/
theorem C3_counterexample : ¬ nextBoundLeastPruned toggleM false 1 25 := by
  intro hcl
  exact absurd (hcl _ rfl rfl).1 (by decide)

/-- Claim C3 as amended: an exhausted bounded-expansion call returns the
minimum of the hard-coded default 100 (`int next_bound = 100;`) and the
costs of all candidates pruned during the call — i.e. the smallest
pruned cost whenever one is at most 100, and 100 when nothing was
pruned. -/
theorem C3_amended_next_bound {S : Type} [DecidableEq S] (M : CubeModel S) (root : S)
    (bound : Nat) (v0 : List S) (md0 : List (S × Nat)) (fuel : Nat) :
    (IDAstar M root bound v0 md0 fuel).all
      (fun r => decide (r.solvedDepth = none →
        r.result.2 = List.foldl Nat.min 100 r.pruned)) = true := by
  cases hI : IDAstar M root bound v0 md0 fuel with
  | none => rfl
  | some r =>
    simp only [Option.all]
    rw [decide_eq_true_eq]
    intro hns
    have hI2 : IDAloop M root bound fuel [(⟨root, 0, 0⟩, 0)] v0 md0 100 [] [] [(root, 0)]
        = some r := hI
    exact IDAloop_next_bound M root bound fuel _ _ _ _ _ _ _ _ hI2 rfl hns

/-- The property claim C4 asserts of a solved bounded-expansion call:
the returned integer is the solved node's path cost, i.e. its depth
(number of moves on the path from the root). -/
def solvedIntIsPathCost {S : Type} [DecidableEq S] (M : CubeModel S) (root : S)
    (bound fuel : Nat) : Prop :=
  ∀ r, IDAstar M root bound [] [] fuel = some r →
    ∀ d, r.solvedDepth = some d → r.result.2 = d

/-- Claim C4, counterexample: on the instance whose solved state is one
move from the root, the bound-2 call reaches the solved state at depth 1
but returns the integer 2 — the bound, not the path cost. -/
theorem C4_counterexample : ¬ solvedIntIsPathCost (chainM 1) 0 2 30 := by
  intro hcl
  exact absurd (hcl _ rfl 1 rfl) (by decide)

/-- Claim C4 as amended: whenever a bounded-expansion call reaches a
solved state, the integer component of the returned pair is the bound
the call was given (`return make_pair(node.cube, bound);`), not the
solved node's depth. -/
theorem C4_amended_solved_returns_bound {S : Type} [DecidableEq S] (M : CubeModel S)
    (root : S) (bound : Nat) (v0 : List S) (md0 : List (S × Nat)) (fuel : Nat) :
    (IDAstar M root bound v0 md0 fuel).all
      (fun r => decide (r.solvedDepth ≠ none → r.result.2 = bound)) = true := by
  cases hI : IDAstar M root bound v0 md0 fuel with
  | none => rfl
  | some r =>
    simp only [Option.all]
    rw [decide_eq_true_eq]
    intro hns
    have hI2 : IDAloop M root bound fuel [(⟨root, 0, 0⟩, 0)] v0 md0 100 [] [] [(root, 0)]
        = some r := hI
    exact IDAloop_solved_bound M root bound fuel _ _ _ _ _ _ _ _ hI2 hns

/-! ## Claim C8: at-most-once expansion and fresh structures per call -/

theorem solveLoop_callInits {S : Type} [DecidableEq S] (M : CubeModel S) (innerFuel : Nat) :
    ∀ (f : Nat) (st : SolveSt S),
      (∀ c ∈ st.callInits, c = ([], [])) →
      ∀ c ∈ (solveLoop M innerFuel f st).1.callInits, c = ([], []) := by
  intro f
  induction f with
  | zero =>
    intro st h
    exact h
  | succ f ih =>
    intro st h
    simp only [solveLoop, resetStructure]
    by_cases hc : st.p.2 = st.bound
    · rw [if_pos hc]
      exact h
    · rw [if_neg hc]
      rcases hI : IDAstar M st.rubiksCube st.p.2 [] [] innerFuel with _ | r <;>
        simp only [hI]
      · exact h
      · apply ih
        intro c hcm
        have hcm2 : c ∈ st.callInits ++ [([], [])] := hcm
        rcases List.mem_append.mp hcm2 with hl | hr
        · exact h c hl
        · exact List.mem_singleton.mp hr

theorem solve_callInits {S : Type} [DecidableEq S] (M : CubeModel S)
    (iF oF rF : Nat) (root : S) :
    ∀ c ∈ (solve M iF oF rF root).2.callInits, c = ([], []) := by
  rcases hI : IDAstar M root 1 [] [] iF with _ | r <;> simp only [solve, hI]
  · intro c hc
    exact List.mem_singleton.mp hc
  · rcases hL : solveLoop M iF oF
        ⟨root, 1, r.result, r.visited, r.move_done, [], [([], [])], [1]⟩ with ⟨st, done⟩
    have hbase := solveLoop_callInits M iF oF
      ⟨root, 1, r.result, r.visited, r.move_done, [], [([], [])], [1]⟩
      (by intro c hc; exact List.mem_singleton.mp hc)
    rw [hL] at hbase
    dsimp only
    cases done
    · exact hbase
    · rcases hR : reconLoop M st.move_done st.rubiksCube rF st.p.1 st.moves with _ | mvs
      · exact hbase
      · exact hbase

/-- Claim C8: within a single bounded-expansion call every state is
expanded (popped past the visited check and processed) at most once, and
every `IDAstar` call made by a `solve` invocation receives empty
`visited`/`move_done` structures — the fresh members for the first call,
and the structures cleared by `resetStructure` for every later call — so
nothing is carried from one iteration into the next. -/
theorem C8_expand_once_and_fresh_structures :
    (∀ {S : Type} [DecidableEq S] (M : CubeModel S) (root : S) (bound : Nat)
        (v0 : List S) (md0 : List (S × Nat)) (fuel : Nat),
      (IDAstar M root bound v0 md0 fuel).all
        (fun r => decide r.expanded.Nodup) = true) ∧
    (∀ {S : Type} [DecidableEq S] (M : CubeModel S) (iF oF rF : Nat) (root : S),
      (solve M iF oF rF root).2.callInits.all
        (fun c => decide (c = ([], []))) = true) := by
  constructor
  · intro S _ M root bound v0 md0 fuel
    cases hI : IDAstar M root bound v0 md0 fuel with
    | none => rfl
    | some r =>
      simp only [Option.all]
      rw [decide_eq_true_eq]
      have hI2 : IDAloop M root bound fuel [(⟨root, 0, 0⟩, 0)] v0 md0 100 [] [] [(root, 0)]
          = some r := hI
      exact IDAloop_expanded_nodup M root bound fuel _ _ _ _ _ _ _ _ hI2 List.nodup_nil
        (fun s hs => absurd hs (List.not_mem_nil s))
  · intro S _ M iF oF rF root
    rw [List.all_eq_true]
    intro c hc
    rw [decide_eq_true_eq]
    exact solve_callInits M iF oF rF root c hc

/-! ## Claims about the driver (C1, C5, C6) -/

/-- Claim C1 (code bug): on the conforming instance whose solved state is
exactly two moves from the root, `solve` terminates and returns the EMPTY
move sequence — the driver only updates the integer `bound`, so
reconstruction starts from `p.first`, the root kept from the first,
exhausted call — although the empty sequence leaves the root unsolved,
while the two-move sequence `[0, 0]` solves it. -/
theorem C1_returned_sequence_does_not_solve :
    (solve (chainM 2) 25 3 5 0).1 = some [] ∧
      (chainM 2).isSolved (applyMoves (chainM 2) 0 []) = false ∧
      (chainM 2).isSolved (applyMoves (chainM 2) 0 [0, 0]) = true := by
  decide

/-- Claim C5 (code bug): `solve` returns a bare move vector — there is no
failure channel in its type.  On the conforming two-state instance with
no solved state at all (so none reachable within any ceiling), `solve`
terminates and returns the empty move sequence, indistinguishable from a
genuine empty Solution, instead of an explicit failure outcome. -/
theorem C5_no_distinguishable_failure :
    (∀ s, toggleM.isSolved s = false) ∧ (solve toggleM 25 3 5 false).1 = some [] :=
  ⟨fun _ => rfl, by decide⟩

/-- The outcome of the first bounded-expansion call of `solve` on the
three-move instance (used to state the divergence of the driver). -/
def c3first : IDAResult Nat :=
  (IDAstar (chainM 3) 0 1 [] [] 40).getD ⟨(0, 0), none, [], [], [], [], []⟩

/-- The outcome of the bound-2 bounded-expansion call on the three-move
instance — the call the stuck driver reruns forever. -/
def c3second : IDAResult Nat :=
  (IDAstar (chainM 3) 0 2 [] [] 40).getD ⟨(0, 0), none, [], [], [], [], []⟩

theorem idastar_chain3_one : IDAstar (chainM 3) 0 1 [] [] 40 = some c3first := by
  decide

theorem idastar_chain3_two : IDAstar (chainM 3) 0 2 [] [] 40 = some c3second := by
  decide

theorem c3first_result : c3first.result = (0, 2) := by decide

theorem c3second_bound : c3second.result.2 = 3 := by decide

theorem solveLoop_chain3_stuck :
    ∀ (f : Nat) (v : List Nat) (md : List (Nat × Nat)) (mv : List Nat)
      (ci : List (List Nat × List (Nat × Nat))) (bt : List Nat),
      (solveLoop (chainM 3) 40 f ⟨0, 3, (0, 2), v, md, mv, ci, bt⟩).2 = false := by
  intro f
  induction f with
  | zero =>
    intro v md mv ci bt
    rfl
  | succ f ih =>
    intro v md mv ci bt
    simp only [solveLoop, resetStructure, idastar_chain3_two, c3second_bound]
    exact ih _ _ _ _ _

theorem solveLoop_chain3_start :
    ∀ (f : Nat) (v : List Nat) (md : List (Nat × Nat)) (mv : List Nat)
      (ci : List (List Nat × List (Nat × Nat))) (bt : List Nat),
      (solveLoop (chainM 3) 40 f ⟨0, 1, (0, 2), v, md, mv, ci, bt⟩).2 = false := by
  intro f v md mv ci bt
  cases f with
  | zero => rfl
  | succ f =>
    simp only [solveLoop, resetStructure, idastar_chain3_two, c3second_bound]
    exact solveLoop_chain3_stuck f _ _ _ _ _

/-- Claim C6 (code bug): on the conforming instance solved three moves
from the root, the driver performs infinitely many iterations — `p` is
never reassigned, so each iteration resets `bound` to `p.second = 2`,
reruns the bound-2 call, gets 3, and repeats — and the successive values
assigned to `bound` are `1, 2, 3, 2, 3, ...`, which is not
non-decreasing. -/
theorem C6_driver_diverges :
    (∀ f, (solve (chainM 3) 40 f 5 0).1 = none) ∧
      ¬ List.Pairwise (fun a b => a ≤ b) ((solve (chainM 3) 40 2 5 0).2.boundTrace) := by
  constructor
  · intro f
    have h2 : (solveLoop (chainM 3) 40 f
        ⟨0, 1, c3first.result, c3first.visited, c3first.move_done, [], [([], [])], [1]⟩).2
        = false := by
      rw [c3first_result]
      exact solveLoop_chain3_start f _ _ _ _ _
    simp only [solve, idastar_chain3_one]
    rcases hres : solveLoop (chainM 3) 40 f
        ⟨0, 1, c3first.result, c3first.visited, c3first.move_done, [], [([], [])], [1]⟩
        with ⟨st, done⟩
    rw [hres] at h2
    cases done
    · rfl
    · exact Bool.noConfusion h2
  · decide

end RubiksSolver
